import Mathlib

/-!
Shallow embedding of the cloud storage engine (`cloud_storage_impl.py`).

The engine is a single object holding four Python dicts:
`_files : name → size`, `_owners : name → identity`,
`_users : id → {capacity, used}`, `_backups : id → {name → size}`.
Python dicts are insertion-ordered with unique keys; we model them as
association lists (`Dict α`) with Python's update semantics: assignment to
an existing key overwrites in place, assignment to a fresh key appends.
Python integers are unbounded, so sizes/capacities are `Int`.
Python strings compare and prefix-match by code points; we model them as
`String` but perform comparison and prefix tests on the underlying
character list so that everything computes in the kernel.
-/

/-- Lexicographic (code-point) `≤` on character lists; this is exactly
Python's string comparison used by `list.sort` tie-breaks. -/
def charListLe : List Char → List Char → Bool
  | [], _ => true
  | _ :: _, [] => false
  | a :: as, b :: bs => if a < b then true else if a = b then charListLe as bs else false

/-- Python `a <= b` on strings. -/
def strLe (a b : String) : Bool := charListLe a.data b.data

/-- Python `s.startswith(pre)`: exact leading-substring match. -/
def strStarts (s pre : String) : Bool := pre.data.isPrefixOf s.data

/-- A Python dict with string keys: insertion-ordered association list with
unique keys (uniqueness is a language guarantee, maintained by `set`). -/
abbrev Dict (α : Type) : Type := List (String × α)

namespace Dict

/-- Python `d.get(k)`, and `k in d` via `isSome`. -/
def get {α : Type} (d : Dict α) (k : String) : Option α :=
  match d with
  | [] => none
  | (k', v) :: rest => if k' = k then some v else get rest k

/-- Python `d[k] = v`: overwrite in place if present, else append. -/
def set {α : Type} (d : Dict α) (k : String) (v : α) : Dict α :=
  match d with
  | [] => [(k, v)]
  | (k', v') :: rest => if k' = k then (k, v) :: rest else (k', v') :: set rest k v

/-- Python `d.pop(k, None)` (the dict after removal). -/
def erase {α : Type} (d : Dict α) (k : String) : Dict α :=
  match d with
  | [] => []
  | (k', v) :: rest => if k' = k then rest else (k', v) :: erase rest k

/-- Python `list(d.keys())`. -/
def keys {α : Type} (d : Dict α) : List String := d.map Prod.fst

end Dict

/-- A user record: `{"capacity": ..., "used": ...}`. -/
structure UserRec where
  capacity : Int
  used : Int
deriving DecidableEq

/-- The full engine state (`__init__`). -/
structure State where
  files : Dict Int
  owners : Dict String
  users : Dict UserRec
  backups : Dict (Dict Int)
deriving DecidableEq

/-- Fresh engine: all four maps empty. -/
def initState : State := ⟨[], [], [], []⟩

/-- Source `add_file(name, size)`: admin-owned add, fails iff the name exists. -/
def add_file (name : String) (size : Int) (s : State) : Bool × State :=
  if (Dict.get s.files name).isSome then (false, s)
  else (true, { s with files := Dict.set s.files name size,
                       owners := Dict.set s.owners name "admin" })

/-- Source `get_file_size(name)`: pure lookup. -/
def get_file_size (name : String) (s : State) : Option Int :=
  Dict.get s.files name

/-- Source `delete_file(name)`: remove file and owner link, decrement the owning
registered user's `used`.  (The source's `self._owners.pop(name)` presumes
the owner link exists — the engine invariant; a missing link leaves the
owner lookup `none` here.) -/
def delete_file (name : String) (s : State) : Option Int × State :=
  match Dict.get s.files name with
  | none => (none, s)
  | some size =>
    let owner := Dict.get s.owners name
    let users' :=
      match owner with
      | some o =>
        match Dict.get s.users o with
        | some u => Dict.set s.users o { u with used := u.used - size }
        | none => s.users
      | none => s.users
    (some size, { s with files := Dict.erase s.files name,
                         owners := Dict.erase s.owners name,
                         users := users' })

/-- The sort key of `get_n_largest`: Python sorts ascending by
`(-size, name)`, i.e. size descending then name ascending. -/
def sortRel (a b : String × Int) : Prop :=
  b.2 < a.2 ∨ (a.2 = b.2 ∧ strLe a.1 b.1 = true)

instance : DecidableRel sortRel := fun _ _ => inferInstanceAs (Decidable (_ ∨ _))

/-- Python slice `l[:n]`: for `n ≥ 0` the first `n` elements, for `n < 0`
all but the last `|n|`. -/
def pySlice {α : Type} (l : List α) (n : Int) : List α :=
  if 0 ≤ n then l.take n.toNat else l.take ((l.length : Int) + n).toNat

/-- Format `"<name>(<size>)"`. -/
def fmtEntry (pr : String × Int) : String := pr.1 ++ "(" ++ toString pr.2 ++ ")"

/-- Source `get_n_largest(prefix, n)`: filter by prefix, stable-sort by
`(-size, name)` (Python's `list.sort` is a stable sort; `insertionSort`
is a stable sort realising the same result), slice to `n`, format. -/
def get_n_largest (pfx : String) (n : Int) (s : State) : List String :=
  let matched := s.files.filter (fun pr => strStarts pr.1 pfx)
  (pySlice (List.insertionSort sortRel matched) n).map fmtEntry

/-- Source `add_user(user_id, capacity)`. -/
def add_user (uid : String) (capacity : Int) (s : State) : Bool × State :=
  if uid = "admin" ∨ (Dict.get s.users uid).isSome then (false, s)
  else (true, { s with users := Dict.set s.users uid ⟨capacity, 0⟩ })

/-- Source `add_file_by(user_id, name, size)`. -/
def add_file_by (uid : String) (name : String) (size : Int) (s : State) :
    Option Int × State :=
  match Dict.get s.users uid with
  | none => (none, s)
  | some u =>
    if (Dict.get s.files name).isSome then (none, s)
    else if u.capacity < u.used + size then (none, s)
    else
      let u' : UserRec := { u with used := u.used + size }
      (some (u'.capacity - u'.used),
       { s with files := Dict.set s.files name size,
                owners := Dict.set s.owners name uid,
                users := Dict.set s.users uid u' })

/-- Source `merge_user(user_id_1, user_id_2)`.  The source loops over
`list(self._owners.items())` reassigning the entries owned by `id2`;
with unique keys that is the pointwise rewrite below. -/
def merge_user (id1 id2 : String) (s : State) : Option Int × State :=
  match Dict.get s.users id1, Dict.get s.users id2 with
  | some u1, some u2 =>
    if id1 = id2 then (none, s)
    else
      let owners' := s.owners.map (fun pr => if pr.2 = id2 then (pr.1, id1) else pr)
      let merged : UserRec := ⟨u1.capacity + u2.capacity, u1.used + u2.used⟩
      (some (merged.capacity - merged.used),
       { s with owners := owners',
                users := Dict.erase (Dict.set s.users id1 merged) id2,
                backups := Dict.erase s.backups id2 })
  | _, _ => (none, s)

/-- The snapshot comprehension of `backup_user`:
`{path: files[path] for path, owner in owners.items() if owner == user_id}`
(the index `files[path]` presumes the file exists — the engine invariant;
a missing file is skipped here). -/
def ownedFiles (uid : String) (s : State) : Dict Int :=
  (s.owners.filter (fun pr => pr.2 = uid)).filterMap
    (fun pr => (Dict.get s.files pr.1).map (fun sz => (pr.1, sz)))

/-- Source `backup_user(user_id)`. -/
def backup_user (uid : String) (s : State) : Option Int × State :=
  if uid ≠ "admin" ∧ (Dict.get s.users uid).isNone then (none, s)
  else
    let snapshot := ownedFiles uid s
    (some snapshot.length, { s with backups := Dict.set s.backups uid snapshot })

/-- One iteration of the restore loop of `restore_user`
(lines 184–206 of the source) on snapshot entry `(path, size)`,
carrying the state and the `restored` counter. -/
def restoreEntry (uid : String) (st : State × Nat) (entry : String × Int) :
    State × Nat :=
  let s := st.1
  let path := entry.1
  let size := entry.2
  match Dict.get s.files path with
  | some cursz =>
    match Dict.get s.owners path with
    | some owner =>
      if owner ≠ uid then
        if uid = "admin" then
          let users' :=
            match Dict.get s.users owner with
            | some u => Dict.set s.users owner { u with used := u.used - cursz }
            | none => s.users
          ({ s with files := Dict.set s.files path size,
                    owners := Dict.set s.owners path "admin",
                    users := users' }, st.2 + 1)
        else st
      else
        let users' :=
          match Dict.get s.users uid with
          | some u => Dict.set s.users uid { u with used := u.used + (size - cursz) }
          | none => s.users
        ({ s with files := Dict.set s.files path size, users := users' }, st.2 + 1)
    | none => st
  | none =>
    let users' :=
      match Dict.get s.users uid with
      | some u => Dict.set s.users uid { u with used := u.used + size }
      | none => s.users
    ({ s with files := Dict.set s.files path size,
              owners := Dict.set s.owners path uid,
              users := users' }, st.2 + 1)

/-- Sum of sizes of the files currently owned by `uid` (the authoritative
`used` recomputation at the end of `restore_user`). -/
def ownedTotal (uid : String) (s : State) : Int :=
  ((s.owners.filter (fun pr => pr.2 = uid)).filterMap
    (fun pr => Dict.get s.files pr.1)).sum

/-- The pruning loop of `restore_user`: pop each path in `ps` from both the
file map and the owner map. -/
def pruneState (ps : List String) (s : State) : State :=
  { s with files := ps.foldl (fun d p => Dict.erase d p) s.files,
           owners := ps.foldl (fun d p => Dict.erase d p) s.owners }

/-- The final step of `restore_user`: if `uid` is a registered user, its
`used` is overwritten with the authoritative recomputation. -/
def recomputeUsed (uid : String) (s : State) : State :=
  match Dict.get s.users uid with
  | some u => { s with users := Dict.set s.users uid { u with used := ownedTotal uid s } }
  | none => s

/-- Source `restore_user(user_id)`. -/
def restore_user (uid : String) (s : State) : Option Int × State :=
  if uid ≠ "admin" ∧ (Dict.get s.users uid).isNone then (none, s)
  else
    let current := (s.owners.filter (fun pr => pr.2 = uid)).map Prod.fst
    match Dict.get s.backups uid with
    | none =>
      let users' :=
        match Dict.get s.users uid with
        | some u => Dict.set s.users uid { u with used := 0 }
        | none => s.users
      (some 0, { pruneState current s with users := users' })
    | some backup =>
      let toPrune := current.filter (fun p => (Dict.get backup p).isNone)
      let stepped := backup.foldl (restoreEntry uid) (pruneState toPrune s, 0)
      (some (stepped.2 : Int), recomputeUsed uid stepped.1)

/-- The nine public operations of the engine, with their arguments. -/
inductive Op : Type where
  | addFile (name : String) (size : Int)
  | getFileSize (name : String)
  | deleteFile (name : String)
  | getNLargest (pfx : String) (n : Int)
  | addUser (uid : String) (capacity : Int)
  | addFileBy (uid : String) (name : String) (size : Int)
  | mergeUser (id1 id2 : String)
  | backupUser (uid : String)
  | restoreUser (uid : String)

/-- The state transition of each public operation (the two queries
`get_file_size` and `get_n_largest` read the state and leave it intact). -/
def applyOp (op : Op) (s : State) : State :=
  match op with
  | .addFile name size => (add_file name size s).2
  | .getFileSize _ => s
  | .getNLargest _ _ => s
  | .deleteFile name => (delete_file name s).2
  | .addUser uid capacity => (add_user uid capacity s).2
  | .addFileBy uid name size => (add_file_by uid name size s).2
  | .mergeUser id1 id2 => (merge_user id1 id2 s).2
  | .backupUser uid => (backup_user uid s).2
  | .restoreUser uid => (restore_user uid s).2

/-- Whether the operation reports failure on state `s`: `False` for the
two boolean operations, absent optional for the rest (`get_n_largest`
returns a list and never fails). -/
def opFailed (op : Op) (s : State) : Bool :=
  match op with
  | .addFile name size => !(add_file name size s).1
  | .getFileSize name => (get_file_size name s).isNone
  | .getNLargest _ _ => false
  | .deleteFile name => (delete_file name s).1.isNone
  | .addUser uid capacity => !(add_user uid capacity s).1
  | .addFileBy uid name size => (add_file_by uid name size s).1.isNone
  | .mergeUser id1 id2 => (merge_user id1 id2 s).1.isNone
  | .backupUser uid => (backup_user uid s).1.isNone
  | .restoreUser uid => (restore_user uid s).1.isNone

/-- States reachable from a fresh engine by any sequence of the nine
public operations. -/
inductive Reachable : State → Prop where
  | init : Reachable initState
  | step {s : State} (op : Op) : Reachable s → Reachable (applyOp op s)

/-- The engine's structural invariant: the four dicts have unique keys
(a Python-dict guarantee), the file-size and file-owner maps share
exactly the same key set, and every recorded owner is `"admin"` or a
currently-registered user. -/
structure EngineInv (s : State) : Prop where
  nodupF : (Dict.keys s.files).Nodup
  nodupO : (Dict.keys s.owners).Nodup
  nodupU : (Dict.keys s.users).Nodup
  nodupB : (Dict.keys s.backups).Nodup
  keysEq : ∀ p, p ∈ Dict.keys s.files ↔ p ∈ Dict.keys s.owners
  ownersValid : ∀ pr ∈ s.owners, pr.2 = "admin" ∨ pr.2 ∈ Dict.keys s.users

namespace Dict

@[simp] theorem keys_nil {α : Type} : keys ([] : Dict α) = [] := rfl

@[simp] theorem keys_cons {α : Type} (k : String) (v : α) (d : Dict α) :
    keys ((k, v) :: d) = k :: keys d := rfl

theorem get_set_self {α : Type} (d : Dict α) (k : String) (v : α) :
    get (set d k v) k = some v := by
  induction d with
  | nil => simp [get, set]
  | cons hd tl ih =>
    obtain ⟨k', v'⟩ := hd
    by_cases h : k' = k <;> simp [get, set, h, ih]

theorem get_set_ne {α : Type} (d : Dict α) (k : String) (v : α) (k' : String)
    (h : k' ≠ k) : get (set d k v) k' = get d k' := by
  induction d with
  | nil => simp [get, set, Ne.symm h]
  | cons hd tl ih =>
    obtain ⟨k'', v''⟩ := hd
    by_cases h2 : k'' = k <;> by_cases h3 : k'' = k' <;>
      simp [get, set, h, Ne.symm h, h2, h3, ih]

theorem set_self {α : Type} {d : Dict α} {k : String} {v : α}
    (h : get d k = some v) : set d k v = d := by
  induction d with
  | nil => simp [get] at h
  | cons hd tl ih =>
    obtain ⟨k', v'⟩ := hd
    by_cases h2 : k' = k
    · subst h2
      simp [get] at h
      simp [set, h]
    · simp [get, h2] at h
      simp [set, h2, ih h]

theorem get_isSome_iff_mem_keys {α : Type} (d : Dict α) (k : String) :
    (get d k).isSome ↔ k ∈ keys d := by
  induction d with
  | nil => simp [get]
  | cons hd tl ih =>
    obtain ⟨k', v'⟩ := hd
    by_cases h : k' = k <;> simp [get, h, ih] <;> tauto

theorem keys_set_of_isSome {α : Type} {d : Dict α} {k : String} (v : α)
    (h : (get d k).isSome) : keys (set d k v) = keys d := by
  induction d with
  | nil => simp [get] at h
  | cons hd tl ih =>
    obtain ⟨k', v'⟩ := hd
    by_cases h2 : k' = k
    · subst h2
      simp [set]
    · simp [get, h2] at h
      simp [set, h2, ih h]

theorem keys_set_of_isNone {α : Type} {d : Dict α} {k : String} (v : α)
    (h : get d k = none) : keys (set d k v) = keys d ++ [k] := by
  induction d with
  | nil => simp [set]
  | cons hd tl ih =>
    obtain ⟨k', v'⟩ := hd
    by_cases h2 : k' = k
    · subst h2
      simp [get] at h
    · simp [get, h2] at h
      simp [set, h2, ih h]

theorem erase_sublist {α : Type} (d : Dict α) (k : String) :
    (erase d k).Sublist d := by
  induction d with
  | nil => simp [erase]
  | cons hd tl ih =>
    obtain ⟨k', v'⟩ := hd
    by_cases h : k' = k
    · simp [erase, h]
    · simpa [erase, h] using List.Sublist.cons₂ (k', v') ih

theorem keys_erase_sublist {α : Type} (d : Dict α) (k : String) :
    (keys (erase d k)).Sublist (keys d) :=
  List.Sublist.map Prod.fst (erase_sublist d k)

theorem nodup_keys_set {α : Type} {d : Dict α} (k : String) (v : α)
    (h : (keys d).Nodup) : (keys (set d k v)).Nodup := by
  rcases ho : get d k with _ | v'
  · rw [keys_set_of_isNone v ho]
    have hk : k ∉ keys d := by
      intro hmem
      have := (get_isSome_iff_mem_keys d k).2 hmem
      simp [ho] at this
    simp [List.nodup_append, h, hk]
  · rw [keys_set_of_isSome v (by simp [ho])]
    exact h

theorem nodup_keys_erase {α : Type} {d : Dict α} (k : String)
    (h : (keys d).Nodup) : (keys (erase d k)).Nodup :=
  (keys_erase_sublist d k).nodup h

theorem get_erase_ne {α : Type} (d : Dict α) (k k' : String) (h : k' ≠ k) :
    get (erase d k) k' = get d k' := by
  induction d with
  | nil => simp [erase]
  | cons hd tl ih =>
    obtain ⟨k'', v''⟩ := hd
    by_cases h2 : k'' = k <;> by_cases h3 : k'' = k' <;>
      simp [erase, get, h, Ne.symm h, h2, h3, ih]

theorem get_erase_self {α : Type} {d : Dict α} (k : String)
    (h : (keys d).Nodup) : get (erase d k) k = none := by
  induction d with
  | nil => simp [erase, get]
  | cons hd tl ih =>
    obtain ⟨k', v'⟩ := hd
    simp only [keys_cons, List.nodup_cons] at h
    by_cases h2 : k' = k
    · subst h2
      rcases hg : get tl k' with _ | w
      · simp [erase, hg]
      · have hmem : k' ∈ keys tl := (get_isSome_iff_mem_keys tl k').1 (by simp [hg])
        exact absurd hmem h.1
    · simp [erase, get, h2, ih h.2]

theorem get_of_mem {α : Type} {d : Dict α} {pr : String × α}
    (hnd : (keys d).Nodup) (hm : pr ∈ d) : get d pr.1 = some pr.2 := by
  induction d with
  | nil => simp at hm
  | cons hd tl ih =>
    obtain ⟨k', v'⟩ := hd
    simp only [keys_cons, List.nodup_cons] at hnd
    rcases List.mem_cons.1 hm with h | h
    · subst h
      simp [get]
    · have hne : k' ≠ pr.1 := by
        intro he
        exact hnd.1 (he ▸ List.mem_map_of_mem Prod.fst h)
      simp [get, hne, ih hnd.2 h]

theorem mem_set {α : Type} {d : Dict α} {k : String} {v : α}
    {pr : String × α} (hm : pr ∈ set d k v) : pr = (k, v) ∨ pr ∈ d := by
  induction d with
  | nil => simpa [set] using hm
  | cons hd tl ih =>
    obtain ⟨k', v'⟩ := hd
    by_cases h2 : k' = k
    · rw [set, if_pos h2] at hm
      rcases List.mem_cons.1 hm with h | h
      · exact Or.inl h
      · exact Or.inr (List.mem_cons_of_mem _ h)
    · rw [set, if_neg h2] at hm
      rcases List.mem_cons.1 hm with h | h
      · exact Or.inr (h ▸ List.mem_cons_self _ _)
      · rcases ih h with h3 | h3
        · exact Or.inl h3
        · exact Or.inr (List.mem_cons_of_mem _ h3)

theorem mem_erase {α : Type} {d : Dict α} {k : String} {pr : String × α}
    (hm : pr ∈ erase d k) : pr ∈ d :=
  (erase_sublist d k).mem hm

end Dict

example :
    let s0 := (add_file "/a" 10 initState).2
    (add_file "/a" 20 s0).1 = false ∧ get_file_size "/a" s0 = some 10 ∧
      (delete_file "/a" s0).1 = some 10 ∧
      get_file_size "/a" (delete_file "/a" s0).2 = none := by decide

example :
    let s1 := (add_user "u" 1000 initState).2
    let s2 := (add_file_by "u" "/f1" 100 s1).2
    (add_file_by "u" "/f1" 100 s1).1 = some 900 ∧
      (add_file_by "u" "/f2" 1000 s2).1 = none ∧
      (backup_user "u" s2).1 = some 1 ∧
      (restore_user "u" (delete_file "/f1" (backup_user "u" s2).2).2).1 = some 1 ∧
      get_file_size "/f1" (restore_user "u" (delete_file "/f1" (backup_user "u" s2).2).2).2
        = some 100 := by decide

example :
    let s := (add_file "/docs/c" 150 (add_file "/docs/b" 200 (add_file "/docs/a" 100 initState).2).2).2
    get_n_largest "/docs/" 2 s = ["/docs/b(200)", "/docs/c(150)"] := by decide

/-- C1: `add_file_by(user_id, name, size)` returns no value exactly when
`user_id` is not a registered user, or `name` already exists as a file
(regardless of owner), or `used + size > capacity` for that user (strict,
so `used + size == capacity` is accepted); on success it adds the file
owned by `user_id`, increments that user's `used` by `size`, and returns
`capacity - used` computed after the update, so `used_after ≤ capacity`
for any accepted call. -/
theorem c1_add_file_by_spec (uid name : String) (size : Int) (s : State) :
    ((add_file_by uid name size s).1 = none ↔
      Dict.get s.users uid = none ∨ (Dict.get s.files name).isSome = true ∨
        (∃ u, Dict.get s.users uid = some u ∧ u.used + size > u.capacity)) ∧
    (∀ r, (add_file_by uid name size s).1 = some r →
      ∃ u, Dict.get s.users uid = some u ∧ Dict.get s.files name = none ∧
        u.used + size ≤ u.capacity ∧
        r = u.capacity - (u.used + size) ∧
        Dict.get (add_file_by uid name size s).2.files name = some size ∧
        Dict.get (add_file_by uid name size s).2.owners name = some uid ∧
        Dict.get (add_file_by uid name size s).2.users uid =
          some ⟨u.capacity, u.used + size⟩ ∧
        (add_file_by uid name size s).2.backups = s.backups ∧
        (∀ q, q ≠ name →
          Dict.get (add_file_by uid name size s).2.files q = Dict.get s.files q ∧
          Dict.get (add_file_by uid name size s).2.owners q = Dict.get s.owners q) ∧
        (∀ w, w ≠ uid →
          Dict.get (add_file_by uid name size s).2.users w = Dict.get s.users w)) := by
  rcases hu : Dict.get s.users uid with _ | u
  · constructor
    · simp [add_file_by, hu]
    · intro r hr
      simp [add_file_by, hu] at hr
  · rcases hf : Dict.get s.files name with _ | sz
    · by_cases hc : u.capacity < u.used + size
      · constructor
        · simp [add_file_by, hu, hf, hc]
        · intro r hr
          simp [add_file_by, hu, hf, hc] at hr
      · constructor
        · simp [add_file_by, hu, hf, hc]
        · intro r hr
          simp [add_file_by, hu, hf, hc] at hr
          refine ⟨u, rfl, rfl, by omega, by omega, ?_, ?_, ?_, ?_, ?_, ?_⟩
          · simp [add_file_by, hu, hf, hc, Dict.get_set_self]
          · simp [add_file_by, hu, hf, hc, Dict.get_set_self]
          · simp [add_file_by, hu, hf, hc, Dict.get_set_self]
          · simp [add_file_by, hu, hf, hc]
          · intro q hq
            simp [add_file_by, hu, hf, hc, Dict.get_set_ne _ _ _ _ hq]
          · intro w hw
            simp [add_file_by, hu, hf, hc, Dict.get_set_ne _ _ _ _ hw]
    · constructor
      · simp [add_file_by, hu, hf]
      · intro r hr
        simp [add_file_by, hu, hf] at hr

/-- C1 witness: a concrete accepted call (user `"u"` with capacity 10 adds a
3-byte file) exercising the success branch of the theorem. -/
theorem c1_add_file_by_spec_witness :
    ∃ u, Dict.get ((add_user "u" 10 initState).2).users "u" = some u ∧
      u.used + 3 ≤ u.capacity ∧ (7 : Int) = u.capacity - (u.used + 3) := by
  obtain ⟨u, h1, _, h3, h4, _⟩ :=
    (c1_add_file_by_spec "u" "/f" 3 (add_user "u" 10 initState).2).2 7 (by decide)
  exact ⟨u, h1, h3, h4⟩

theorem get_map_rewrite (d : Dict String) (id1 id2 k : String) :
    Dict.get (d.map (fun pr => if pr.2 = id2 then (pr.1, id1) else pr)) k =
      (Dict.get d k).map (fun o => if o = id2 then id1 else o) := by
  induction d with
  | nil => simp [Dict.get]
  | cons hd tl ih =>
    obtain ⟨k', v'⟩ := hd
    have hmap : List.map (fun pr => if pr.2 = id2 then (pr.1, id1) else pr) ((k', v') :: tl)
        = (if v' = id2 then (k', id1) else (k', v')) ::
          List.map (fun pr => if pr.2 = id2 then (pr.1, id1) else pr) tl := rfl
    rw [hmap]
    by_cases hv : v' = id2
    · rw [if_pos hv]
      by_cases hk : k' = k <;> simp [Dict.get, hk, hv, ih]
    · rw [if_neg hv]
      by_cases hk : k' = k <;> simp [Dict.get, hk, hv, ih]

/-- C2: a successful `merge_user(id1, id2)` re-owns every file owned by
`id2` to `id1` (file names and sizes untouched), sets `id1`'s capacity and
used to the sums of both users' prior values, deletes `id2`'s user record,
discards `id2`'s backup snapshot without merging it into `id1`'s, and
returns `id1`'s post-merge `capacity - used`; it returns no value when
either id is not a registered user or `id1 == id2`. -/
theorem c2_merge_user_spec (id1 id2 : String) (s : State) :
    ((merge_user id1 id2 s).1 = none ↔
      Dict.get s.users id1 = none ∨ Dict.get s.users id2 = none ∨ id1 = id2) ∧
    (∀ u1 u2, Dict.get s.users id1 = some u1 → Dict.get s.users id2 = some u2 →
      id1 ≠ id2 →
      (merge_user id1 id2 s).1 =
        some ((u1.capacity + u2.capacity) - (u1.used + u2.used)) ∧
      (merge_user id1 id2 s).2.files = s.files ∧
      (∀ p, Dict.get (merge_user id1 id2 s).2.owners p =
        (Dict.get s.owners p).map (fun o => if o = id2 then id1 else o)) ∧
      Dict.get (merge_user id1 id2 s).2.users id1 =
        some ⟨u1.capacity + u2.capacity, u1.used + u2.used⟩ ∧
      ((Dict.keys s.users).Nodup →
        Dict.get (merge_user id1 id2 s).2.users id2 = none) ∧
      (∀ w, w ≠ id1 → w ≠ id2 →
        Dict.get (merge_user id1 id2 s).2.users w = Dict.get s.users w) ∧
      ((Dict.keys s.backups).Nodup →
        Dict.get (merge_user id1 id2 s).2.backups id2 = none) ∧
      (∀ w, w ≠ id2 →
        Dict.get (merge_user id1 id2 s).2.backups w = Dict.get s.backups w)) := by
  rcases hu1 : Dict.get s.users id1 with _ | u1
  · constructor
    · simp [merge_user, hu1]
    · intro u1 u2 h1 h2 h3
      simp at h1
  · rcases hu2 : Dict.get s.users id2 with _ | u2
    · constructor
      · simp [merge_user, hu1, hu2]
      · intro w1 w2 h1 h2 h3
        simp at h2
    · by_cases heq : id1 = id2
      · constructor
        · simp [merge_user, hu1, hu2, heq]
        · intro w1 w2 h1 h2 h3
          exact absurd heq h3
      · constructor
        · simp [merge_user, hu1, hu2, heq]
        · intro w1 w2 h1 h2 h3
          obtain rfl : u1 = w1 := by simpa using h1
          obtain rfl : u2 = w2 := by simpa using h2
          refine ⟨by simp [merge_user, hu1, hu2, heq], by simp [merge_user, hu1, hu2, heq],
            ?_, ?_, ?_, ?_, ?_, ?_⟩
          · intro p
            simp only [merge_user, hu1, hu2, if_neg heq]
            exact get_map_rewrite s.owners id1 id2 p
          · simp only [merge_user, hu1, hu2, if_neg heq]
            rw [Dict.get_erase_ne _ _ _ heq, Dict.get_set_self]
          · intro hnd
            simp only [merge_user, hu1, hu2, if_neg heq]
            exact Dict.get_erase_self id2 (Dict.nodup_keys_set id1 _ hnd)
          · intro w hw1 hw2
            simp only [merge_user, hu1, hu2, if_neg heq]
            rw [Dict.get_erase_ne _ _ _ hw2, Dict.get_set_ne _ _ _ _ hw1]
          · intro hnd
            simp only [merge_user, hu1, hu2, if_neg heq]
            exact Dict.get_erase_self id2 hnd
          · intro w hw
            simp only [merge_user, hu1, hu2, if_neg heq]
            exact Dict.get_erase_ne _ _ _ hw

/-- C2 witness: merging `"b"` (capacity 5) into `"a"` (capacity 10) on a
concrete engine returns the summed remaining capacity 15. -/
theorem c2_merge_user_spec_witness :
    (merge_user "a" "b" (add_user "b" 5 (add_user "a" 10 initState).2).2).1 =
      some 15 := by
  have h := (c2_merge_user_spec "a" "b"
    (add_user "b" 5 (add_user "a" 10 initState).2).2).2 ⟨10, 0⟩ ⟨5, 0⟩
    (by decide) (by decide) (by decide)
  exact h.1

/-- C6: whenever any of the nine engine operations reports failure
(boolean `false` or absent optional), the entire engine state — file-size
map, owner map, user records and backup snapshots — is exactly as it was
before the call; in particular `add_file` and `add_file_by` on an existing
name fail with no mutation. -/
theorem c6_failure_no_mutation (op : Op) (s : State)
    (h : opFailed op s = true) : applyOp op s = s := by
  cases op with
  | addFile name size =>
    by_cases hf : (Dict.get s.files name).isSome
    · simp [applyOp, add_file, hf]
    · simp [opFailed, add_file, hf] at h
  | getFileSize name => rfl
  | getNLargest pfx n => rfl
  | deleteFile name =>
    rcases hf : Dict.get s.files name with _ | sz
    · simp [applyOp, delete_file, hf]
    · simp [opFailed, delete_file, hf] at h
  | addUser uid capacity =>
    by_cases hc : uid = "admin" ∨ (Dict.get s.users uid).isSome
    · simp [applyOp, add_user, hc]
    · simp [opFailed, add_user, hc] at h
  | addFileBy uid name size =>
    rcases hu : Dict.get s.users uid with _ | u
    · simp [applyOp, add_file_by, hu]
    · by_cases hf : (Dict.get s.files name).isSome
      · simp [applyOp, add_file_by, hu, hf]
      · by_cases hc : u.capacity < u.used + size
        · simp [applyOp, add_file_by, hu, hf, hc]
        · simp [opFailed, add_file_by, hu, hf, hc] at h
  | mergeUser id1 id2 =>
    rcases hu1 : Dict.get s.users id1 with _ | u1
    · simp [applyOp, merge_user, hu1]
    · rcases hu2 : Dict.get s.users id2 with _ | u2
      · simp [applyOp, merge_user, hu1, hu2]
      · by_cases he : id1 = id2
        · simp [applyOp, merge_user, hu1, hu2, he]
        · simp [opFailed, merge_user, hu1, hu2, he] at h
  | backupUser uid =>
    by_cases hv : ¬uid = "admin" ∧ Dict.get s.users uid = none
    · simp [applyOp, backup_user, hv]
    · simp [opFailed, backup_user, hv] at h
  | restoreUser uid =>
    by_cases hv : ¬uid = "admin" ∧ Dict.get s.users uid = none
    · simp [applyOp, restore_user, hv]
    · rcases hb : Dict.get s.backups uid with _ | backup <;>
        simp [opFailed, restore_user, hv, hb] at h

/-- C6 witness: deleting a non-existent file on a fresh engine fails and
leaves the state untouched. -/
theorem c6_failure_no_mutation_witness :
    applyOp (Op.deleteFile "/a") initState = initState :=
  c6_failure_no_mutation (Op.deleteFile "/a") initState (by decide)

theorem charListLe_cons_iff (x y : Char) (xs ys : List Char) :
    charListLe (x :: xs) (y :: ys) = true ↔
      x < y ∨ (x = y ∧ charListLe xs ys = true) := by
  by_cases h1 : x < y
  · simp [charListLe, h1]
  · by_cases h2 : x = y <;> simp [charListLe, h1, h2]

theorem charListLe_total (a b : List Char) :
    charListLe a b = true ∨ charListLe b a = true := by
  induction a generalizing b with
  | nil => exact Or.inl (by simp [charListLe])
  | cons x xs ih =>
    cases b with
    | nil => exact Or.inr (by simp [charListLe])
    | cons y ys =>
      rcases lt_trichotomy x y with h | h | h
      · exact Or.inl ((charListLe_cons_iff x y xs ys).2 (Or.inl h))
      · subst h
        rcases ih ys with h2 | h2
        · exact Or.inl ((charListLe_cons_iff x x xs ys).2 (Or.inr ⟨rfl, h2⟩))
        · exact Or.inr ((charListLe_cons_iff x x ys xs).2 (Or.inr ⟨rfl, h2⟩))
      · exact Or.inr ((charListLe_cons_iff y x ys xs).2 (Or.inl h))

theorem charListLe_trans {a b c : List Char} (h1 : charListLe a b = true)
    (h2 : charListLe b c = true) : charListLe a c = true := by
  induction a generalizing b c with
  | nil => simp [charListLe]
  | cons x xs ih =>
    cases b with
    | nil => simp [charListLe] at h1
    | cons y ys =>
      cases c with
      | nil => simp [charListLe] at h2
      | cons z zs =>
        rcases (charListLe_cons_iff x y xs ys).1 h1 with hxy | ⟨hxy, hrec1⟩ <;>
          rcases (charListLe_cons_iff y z ys zs).1 h2 with hyz | ⟨hyz, hrec2⟩
        · exact (charListLe_cons_iff x z xs zs).2 (Or.inl (lt_trans hxy hyz))
        · exact (charListLe_cons_iff x z xs zs).2 (Or.inl (hyz ▸ hxy))
        · exact (charListLe_cons_iff x z xs zs).2 (Or.inl (hxy ▸ hyz))
        · exact (charListLe_cons_iff x z xs zs).2
            (Or.inr ⟨hxy.trans hyz, ih hrec1 hrec2⟩)

instance : IsTrans (String × Int) sortRel where
  trans a b c hab hbc := by
    rcases hab with h | ⟨he, hl⟩ <;> rcases hbc with h2 | ⟨he2, hl2⟩
    · exact Or.inl (lt_trans h2 h)
    · exact Or.inl (by omega)
    · exact Or.inl (by omega)
    · exact Or.inr ⟨by omega, charListLe_trans hl hl2⟩

instance : IsTotal (String × Int) sortRel where
  total a b := by
    rcases lt_trichotomy a.2 b.2 with h | h | h
    · exact Or.inr (Or.inl h)
    · rcases charListLe_total a.1.data b.1.data with h2 | h2
      · exact Or.inl (Or.inr ⟨h, h2⟩)
      · exact Or.inr (Or.inr ⟨h.symm, h2⟩)
    · exact Or.inl (Or.inl h)

/-- C5: for `n ≥ 0`, `get_n_largest(prefix, n)` returns exactly the files
whose names have `prefix` as a literal leading substring, sorted by size
descending with ties broken by name ascending (lexicographic on the raw
string), truncated to at most `n` entries, each formatted
`"<name>(<size>)"`; the call mutates no state; `n = 0` yields the empty
list and `n` larger than the match count yields all matches. -/
theorem c5_get_n_largest_spec (pfx : String) (n : Int) (s : State) :
    applyOp (Op.getNLargest pfx n) s = s ∧
    (0 ≤ n →
      ∃ sorted : List (String × Int),
        sorted.Perm (s.files.filter (fun pr => strStarts pr.1 pfx)) ∧
        List.Sorted sortRel sorted ∧
        get_n_largest pfx n s = (sorted.take n.toNat).map fmtEntry ∧
        (get_n_largest pfx n s).length =
          min n.toNat (s.files.filter (fun pr => strStarts pr.1 pfx)).length ∧
        (n = 0 → get_n_largest pfx n s = []) ∧
        (((s.files.filter (fun pr => strStarts pr.1 pfx)).length : Int) ≤ n →
          get_n_largest pfx n s = sorted.map fmtEntry)) := by
  refine ⟨rfl, ?_⟩
  intro hn
  refine ⟨List.insertionSort sortRel (s.files.filter (fun pr => strStarts pr.1 pfx)),
    List.perm_insertionSort sortRel _, List.sorted_insertionSort sortRel _, ?_, ?_, ?_, ?_⟩
  · simp [get_n_largest, pySlice, hn]
  · have hlen := (List.perm_insertionSort sortRel
      (s.files.filter (fun pr => strStarts pr.1 pfx))).length_eq
    simp [get_n_largest, pySlice, hn, hlen]
  · intro h0
    subst h0
    simp [get_n_largest, pySlice]
  · intro hle
    have hlen := (List.perm_insertionSort sortRel
      (s.files.filter (fun pr => strStarts pr.1 pfx))).length_eq
    have hle2 : (List.insertionSort sortRel
        (s.files.filter (fun pr => strStarts pr.1 pfx))).length ≤ n.toNat := by
      omega
    simp [get_n_largest, pySlice, hn, List.take_of_length_le hle2]

/-- C5 witness: a concrete three-file engine queried with `n = 2`. -/
theorem c5_get_n_largest_spec_witness :
    ∃ sorted : List (String × Int),
      sorted.Perm ((⟨[("/docs/a", 100), ("/docs/b", 200), ("/docs/c", 150)],
        [("/docs/a", "admin"), ("/docs/b", "admin"), ("/docs/c", "admin")], [], []⟩ :
          State).files.filter (fun pr => strStarts pr.1 "/docs/")) ∧
      List.Sorted sortRel sorted ∧
      get_n_largest "/docs/" 2 (⟨[("/docs/a", 100), ("/docs/b", 200), ("/docs/c", 150)],
        [("/docs/a", "admin"), ("/docs/b", "admin"), ("/docs/c", "admin")], [], []⟩ :
          State) = (sorted.take (2 : Int).toNat).map fmtEntry := by
  obtain ⟨sorted, h1, h2, h3, _⟩ := (c5_get_n_largest_spec "/docs/" 2
    (⟨[("/docs/a", 100), ("/docs/b", 200), ("/docs/c", 150)],
      [("/docs/a", "admin"), ("/docs/b", "admin"), ("/docs/c", "admin")], [], []⟩ :
        State)).2 (by decide)
  exact ⟨sorted, h1, h2, h3⟩

/-- C10: for negative `n`, `get_n_largest(prefix, n)` returns the sorted
match list with its last `|n|` entries dropped (the Python slice
`matches[:n]`), rather than an empty list or an error. -/
theorem c10_get_n_largest_negative (pfx : String) (n : Int) (s : State)
    (hn : n < 0) :
    ∃ sorted : List (String × Int),
      sorted.Perm (s.files.filter (fun pr => strStarts pr.1 pfx)) ∧
      List.Sorted sortRel sorted ∧
      get_n_largest pfx n s = (sorted.take (sorted.length - n.natAbs)).map fmtEntry := by
  refine ⟨List.insertionSort sortRel (s.files.filter (fun pr => strStarts pr.1 pfx)),
    List.perm_insertionSort sortRel _, List.sorted_insertionSort sortRel _, ?_⟩
  have hng : ¬(0 ≤ n) := by omega
  have harith : (((List.insertionSort sortRel
      (s.files.filter (fun pr => strStarts pr.1 pfx))).length : Int) + n).toNat =
      (List.insertionSort sortRel (s.files.filter (fun pr => strStarts pr.1 pfx))).length
        - n.natAbs := by
    omega
  simp [get_n_largest, pySlice, hng, harith]
  omega

/-- C10 witness: with three matches and `n = -1` the two largest are
returned. -/
theorem c10_get_n_largest_negative_witness :
    (∃ sorted : List (String × Int),
      sorted.Perm ((⟨[("a", 1), ("b", 3), ("c", 2)],
        [("a", "admin"), ("b", "admin"), ("c", "admin")], [], []⟩ :
          State).files.filter (fun pr => strStarts pr.1 "")) ∧
      List.Sorted sortRel sorted ∧
      get_n_largest "" (-1) (⟨[("a", 1), ("b", 3), ("c", 2)],
        [("a", "admin"), ("b", "admin"), ("c", "admin")], [], []⟩ : State) =
        (sorted.take (sorted.length - (-1 : Int).natAbs)).map fmtEntry) ∧
    get_n_largest "" (-1) (⟨[("a", 1), ("b", 3), ("c", 2)],
      [("a", "admin"), ("b", "admin"), ("c", "admin")], [], []⟩ : State) =
      ["b(3)", "c(2)"] :=
  ⟨c10_get_n_largest_negative "" (-1) _ (by decide), by decide⟩

/-- C3: during the restore loop, for a snapshot entry `(path, size)` whose
file currently exists with an owner different from `user_id`: if `user_id`
is `"admin"`, the current owner's `used` (when that owner is a registered
user) is decremented by the file's present size, the file's size is
overwritten to the snapshot value, ownership is reassigned to `"admin"`,
and the entry counts toward the restored count; if `user_id` is not
`"admin"`, the entry is a no-op that does not count as restored and causes
no error. -/
theorem c3_restore_entry_foreign_owner (uid path owner : String)
    (size cursz : Int) (s : State) (restored : Nat)
    (hf : Dict.get s.files path = some cursz)
    (ho : Dict.get s.owners path = some owner)
    (hne : owner ≠ uid) :
    (uid = "admin" →
      (restoreEntry uid (s, restored) (path, size)).2 = restored + 1 ∧
      Dict.get (restoreEntry uid (s, restored) (path, size)).1.files path =
        some size ∧
      Dict.get (restoreEntry uid (s, restored) (path, size)).1.owners path =
        some "admin" ∧
      (∀ u, Dict.get s.users owner = some u →
        Dict.get (restoreEntry uid (s, restored) (path, size)).1.users owner =
          some ⟨u.capacity, u.used - cursz⟩ ∧
        (∀ w, w ≠ owner →
          Dict.get (restoreEntry uid (s, restored) (path, size)).1.users w =
            Dict.get s.users w)) ∧
      (Dict.get s.users owner = none →
        (restoreEntry uid (s, restored) (path, size)).1.users = s.users) ∧
      (∀ q, q ≠ path →
        Dict.get (restoreEntry uid (s, restored) (path, size)).1.files q =
          Dict.get s.files q ∧
        Dict.get (restoreEntry uid (s, restored) (path, size)).1.owners q =
          Dict.get s.owners q) ∧
      (restoreEntry uid (s, restored) (path, size)).1.backups = s.backups) ∧
    (uid ≠ "admin" → restoreEntry uid (s, restored) (path, size) = (s, restored)) := by
  constructor
  · intro ha
    subst ha
    refine ⟨?_, ?_, ?_, ?_, ?_, ?_, ?_⟩
    · simp [restoreEntry, hf, ho, hne]
    · simp [restoreEntry, hf, ho, hne, Dict.get_set_self]
    · simp [restoreEntry, hf, ho, hne, Dict.get_set_self]
    · intro u hu
      constructor
      · simp [restoreEntry, hf, ho, hne, hu, Dict.get_set_self]
      · intro w hw
        simp [restoreEntry, hf, ho, hne, hu, Dict.get_set_ne _ _ _ _ hw]
    · intro hnu
      simp [restoreEntry, hf, ho, hne, hnu]
    · intro q hq
      constructor
      · simp [restoreEntry, hf, ho, hne, Dict.get_set_ne _ _ _ _ hq]
      · simp [restoreEntry, hf, ho, hne, Dict.get_set_ne _ _ _ _ hq]
    · simp [restoreEntry, hf, ho, hne]
  · intro hna
    simp [restoreEntry, hf, ho, hne, hna]

/-- C3 witness: the admin forcibly reclaims `"/f"` from `"bob"` — `"bob"`'s
`used` drops by the present size 5 — and a non-admin user `"eve"` hitting
the same entry is a strict no-op. -/
theorem c3_restore_entry_foreign_owner_witness :
    Dict.get (restoreEntry "admin"
      (⟨[("/f", 5)], [("/f", "bob")], [("bob", ⟨10, 5⟩)], []⟩, 0)
      ("/f", 3)).1.users "bob" = some ⟨10, 0⟩ ∧
    restoreEntry "eve" (⟨[("/f", 5)], [("/f", "bob")], [("bob", ⟨10, 5⟩)], []⟩, 0)
      ("/f", 3) = (⟨[("/f", 5)], [("/f", "bob")], [("bob", ⟨10, 5⟩)], []⟩, 0) := by
  constructor
  · have h := (c3_restore_entry_foreign_owner "admin" "/f" "bob" 3 5
      ⟨[("/f", 5)], [("/f", "bob")], [("bob", ⟨10, 5⟩)], []⟩ 0
      (by decide) (by decide) (by decide)).1 rfl
    have h2 := (h.2.2.2.1 ⟨10, 5⟩ (by decide)).1
    simpa using h2
  · exact (c3_restore_entry_foreign_owner "eve" "/f" "bob" 3 5
      ⟨[("/f", 5)], [("/f", "bob")], [("bob", ⟨10, 5⟩)], []⟩ 0
      (by decide) (by decide) (by decide)).2 (by decide)

theorem get_eq_none_of_not_mem {α : Type} {d : Dict α} {p : String}
    (h : p ∉ Dict.keys d) : Dict.get d p = none := by
  rcases hg : Dict.get d p with _ | v
  · rfl
  · exact absurd ((Dict.get_isSome_iff_mem_keys d p).1 (by simp [hg])) h

theorem mem_owner_keys_iff (d : Dict String) (uid p : String)
    (hnd : (Dict.keys d).Nodup) :
    p ∈ (d.filter (fun pr => pr.2 = uid)).map Prod.fst ↔
      Dict.get d p = some uid := by
  induction d with
  | nil => simp [Dict.get]
  | cons hd tl ih =>
    obtain ⟨k', v'⟩ := hd
    simp only [Dict.keys_cons, List.nodup_cons] at hnd
    by_cases hk : k' = p
    · subst hk
      have hnone : Dict.get tl k' = none := get_eq_none_of_not_mem hnd.1
      by_cases hv : v' = uid
      · simp [Dict.get, hv]
      · simp [Dict.get, hv, ih hnd.2, hnone]
    · by_cases hv : v' = uid <;>
        simp [Dict.get, hk, Ne.symm hk, hv, ih hnd.2]

theorem get_foldl_erase {α : Type} (ps : List String) (d : Dict α)
    (hnd : (Dict.keys d).Nodup) (p : String) :
    Dict.get (ps.foldl (fun d k => Dict.erase d k) d) p =
      if p ∈ ps then none else Dict.get d p := by
  induction ps generalizing d with
  | nil => simp
  | cons k ks ih =>
    have hnd2 : (Dict.keys (Dict.erase d k)).Nodup := Dict.nodup_keys_erase k hnd
    by_cases hk : p = k
    · subst hk
      by_cases hmem : p ∈ ks
      · simp [List.foldl_cons, ih (Dict.erase d p) hnd2, hmem]
      · simp [List.foldl_cons, ih (Dict.erase d p) hnd2, hmem,
          Dict.get_erase_self p hnd]
    · by_cases hmem : p ∈ ks <;>
        simp [List.foldl_cons, ih (Dict.erase d k) hnd2, hmem, hk,
          Dict.get_erase_ne _ _ _ hk]

/-- C7: for an identity that is `"admin"` or a registered user and has no
recorded backup snapshot, `restore_user` deletes every file currently
owned by it (file entry and owner link both removed), leaves all other
files and owner links intact, resets its `used` to 0 when it is a
registered user, leaves backups untouched, and returns 0. -/
theorem c7_restore_no_snapshot (uid : String) (s : State)
    (hvalid : uid = "admin" ∨ (Dict.get s.users uid).isSome)
    (hnb : Dict.get s.backups uid = none)
    (hndF : (Dict.keys s.files).Nodup)
    (hndO : (Dict.keys s.owners).Nodup) :
    (restore_user uid s).1 = some 0 ∧
    (∀ p, Dict.get s.owners p = some uid →
      Dict.get (restore_user uid s).2.files p = none ∧
      Dict.get (restore_user uid s).2.owners p = none) ∧
    (∀ p, Dict.get s.owners p ≠ some uid →
      Dict.get (restore_user uid s).2.files p = Dict.get s.files p ∧
      Dict.get (restore_user uid s).2.owners p = Dict.get s.owners p) ∧
    (∀ u, Dict.get s.users uid = some u →
      Dict.get (restore_user uid s).2.users uid = some ⟨u.capacity, 0⟩) ∧
    (Dict.get s.users uid = none → (restore_user uid s).2.users = s.users) ∧
    (∀ w, w ≠ uid →
      Dict.get (restore_user uid s).2.users w = Dict.get s.users w) ∧
    (restore_user uid s).2.backups = s.backups := by
  have hguard : ¬(¬uid = "admin" ∧ Dict.get s.users uid = none) := by
    rcases hvalid with h | h
    · simp [h]
    · intro hc
      rw [hc.2] at h
      simp at h
  refine ⟨?_, ?_, ?_, ?_, ?_, ?_, ?_⟩
  · simp [restore_user, hguard, hnb]
  · intro p hp
    have hmem : p ∈ (s.owners.filter (fun pr => pr.2 = uid)).map Prod.fst :=
      (mem_owner_keys_iff s.owners uid p hndO).2 hp
    constructor <;>
      simp [restore_user, pruneState, hguard, hnb, get_foldl_erase, hndF, hndO, hmem]
  · intro p hp
    have hmem : p ∉ (s.owners.filter (fun pr => pr.2 = uid)).map Prod.fst := by
      intro hc
      exact hp ((mem_owner_keys_iff s.owners uid p hndO).1 hc)
    constructor <;>
      simp [restore_user, pruneState, hguard, hnb, get_foldl_erase, hndF, hndO, hmem]
  · intro u hu
    simp [restore_user, pruneState, hguard, hnb, hu, Dict.get_set_self]
  · intro hu
    have ha : uid = "admin" := by
      rcases hvalid with h | h
      · exact h
      · rw [hu] at h
        simp at h
    subst ha
    simp [restore_user, pruneState, hnb, hu]
  · intro w hw
    rcases hu : Dict.get s.users uid with _ | u
    · have ha : uid = "admin" := by
        rcases hvalid with h | h
        · exact h
        · rw [hu] at h
          simp at h
      subst ha
      simp [restore_user, pruneState, hnb, hu]
    · simp [restore_user, pruneState, hguard, hnb, hu, Dict.get_set_ne _ _ _ _ hw]
  · simp [restore_user, pruneState, hguard, hnb]

/-- C7 witness: user `"u"` (capacity 10, used 4, no snapshot) owns `"/f"`;
restoring deletes the file, resets `used` to 0 and returns 0. -/
theorem c7_restore_no_snapshot_witness :
    (restore_user "u" (⟨[("/f", 4)], [("/f", "u")], [("u", ⟨10, 4⟩)], []⟩ : State)).1 =
      some 0 ∧
    Dict.get (restore_user "u"
      (⟨[("/f", 4)], [("/f", "u")], [("u", ⟨10, 4⟩)], []⟩ : State)).2.files "/f" = none ∧
    Dict.get (restore_user "u"
      (⟨[("/f", 4)], [("/f", "u")], [("u", ⟨10, 4⟩)], []⟩ : State)).2.users "u" =
      some ⟨10, 0⟩ := by
  have h := c7_restore_no_snapshot "u"
    (⟨[("/f", 4)], [("/f", "u")], [("u", ⟨10, 4⟩)], []⟩ : State)
    (Or.inr (by decide)) (by decide) (by decide) (by decide)
  exact ⟨h.1, (h.2.1 "/f" (by decide)).1, h.2.2.2.1 ⟨10, 4⟩ (by decide)⟩

theorem mem_keys_erase {α : Type} {d : Dict α} (k p : String)
    (hnd : (Dict.keys d).Nodup) :
    p ∈ Dict.keys (Dict.erase d k) ↔ p ∈ Dict.keys d ∧ p ≠ k := by
  by_cases hk : p = k
  · subst hk
    simp only [ne_eq, not_true_eq_false, and_false, iff_false]
    intro hc
    have := (Dict.get_isSome_iff_mem_keys (Dict.erase d p) p).2 hc
    rw [Dict.get_erase_self p hnd] at this
    simp at this
  · rw [← Dict.get_isSome_iff_mem_keys, ← Dict.get_isSome_iff_mem_keys,
      Dict.get_erase_ne d k p hk]
    simp [hk]

theorem mem_keys_set {α : Type} {d : Dict α} (k p : String) (v : α) :
    p ∈ Dict.keys (Dict.set d k v) ↔ p ∈ Dict.keys d ∨ p = k := by
  rcases hg : Dict.get d k with _ | w
  · rw [Dict.keys_set_of_isNone v hg]
    simp
  · rw [Dict.keys_set_of_isSome v (by simp [hg])]
    constructor
    · exact fun h => Or.inl h
    · rintro (h | h)
      · exact h
      · subst h
        exact (Dict.get_isSome_iff_mem_keys d p).1 (by simp [hg])

theorem keys_map_rewrite (d : Dict String) (id1 id2 : String) :
    Dict.keys (d.map (fun pr => if pr.2 = id2 then (pr.1, id1) else pr)) =
      Dict.keys d := by
  induction d with
  | nil => rfl
  | cons hd tl ih =>
    obtain ⟨k', v'⟩ := hd
    by_cases hv : v' = id2 <;>
      simp only [List.map_cons, Dict.keys] at ih ⊢ <;> simp [hv, ih]

theorem foldl_erase_sublist {α : Type} (ps : List String) (d : Dict α) :
    (ps.foldl (fun d k => Dict.erase d k) d).Sublist d := by
  induction ps generalizing d with
  | nil => simp
  | cons k ks ih =>
    exact (ih (Dict.erase d k)).trans (Dict.erase_sublist d k)

theorem nodup_keys_foldl_erase {α : Type} (ps : List String) (d : Dict α)
    (hnd : (Dict.keys d).Nodup) :
    (Dict.keys (ps.foldl (fun d k => Dict.erase d k) d)).Nodup :=
  (List.Sublist.map Prod.fst (foldl_erase_sublist ps d)).nodup hnd

theorem mem_keys_foldl_erase {α : Type} (ps : List String) (d : Dict α)
    (hnd : (Dict.keys d).Nodup) (p : String) :
    p ∈ Dict.keys (ps.foldl (fun d k => Dict.erase d k) d) ↔
      p ∈ Dict.keys d ∧ p ∉ ps := by
  rw [← Dict.get_isSome_iff_mem_keys, get_foldl_erase ps d hnd p]
  by_cases hmem : p ∈ ps <;> simp [hmem, Dict.get_isSome_iff_mem_keys]

theorem engineInv_add_file (name : String) (size : Int) {s : State}
    (h : EngineInv s) : EngineInv (add_file name size s).2 := by
  by_cases hf : (Dict.get s.files name).isSome
  · simpa [add_file, hf] using h
  · have hfn : Dict.get s.files name = none := by
      rcases hg : Dict.get s.files name with _ | v
      · rfl
      · simp [hg] at hf
    have hFn : name ∉ Dict.keys s.files := fun hc => by
      have := (Dict.get_isSome_iff_mem_keys s.files name).2 hc
      simp [hfn] at this
    have hOn : name ∉ Dict.keys s.owners := fun hc => hFn ((h.keysEq name).2 hc)
    have hon : Dict.get s.owners name = none := get_eq_none_of_not_mem hOn
    have hstate : (add_file name size s).2 =
        { s with files := Dict.set s.files name size,
                 owners := Dict.set s.owners name "admin" } := by
      simp [add_file, hf]
    rw [hstate]
    refine ⟨?_, ?_, h.nodupU, h.nodupB, ?_, ?_⟩
    · rw [Dict.keys_set_of_isNone _ hfn]
      simp [List.nodup_append, h.nodupF, hFn]
    · rw [Dict.keys_set_of_isNone _ hon]
      simp [List.nodup_append, h.nodupO, hOn]
    · intro p
      rw [mem_keys_set, mem_keys_set]
      have := h.keysEq p
      tauto
    · intro pr hpr
      rcases Dict.mem_set hpr with hp | hp
      · rw [hp]
        exact Or.inl rfl
      · exact h.ownersValid pr hp

theorem engineInv_add_user (uid : String) (capacity : Int) {s : State}
    (h : EngineInv s) : EngineInv (add_user uid capacity s).2 := by
  by_cases hc : uid = "admin" ∨ (Dict.get s.users uid).isSome
  · simpa [add_user, hc] using h
  · have hstate : (add_user uid capacity s).2 =
        { s with users := Dict.set s.users uid ⟨capacity, 0⟩ } := by
      simp only [add_user, if_neg hc]
    have hun : Dict.get s.users uid = none := by
      rcases hg : Dict.get s.users uid with _ | v
      · rfl
      · exact absurd (Or.inr (by simp [hg])) hc
    have hUn : uid ∉ Dict.keys s.users := fun hmem => by
      have := (Dict.get_isSome_iff_mem_keys s.users uid).2 hmem
      simp [hun] at this
    rw [hstate]
    refine ⟨h.nodupF, h.nodupO, ?_, h.nodupB, h.keysEq, ?_⟩
    · rw [Dict.keys_set_of_isNone _ hun]
      simp [List.nodup_append, h.nodupU, hUn]
    · intro pr hpr
      rcases h.ownersValid pr hpr with hv | hv
      · exact Or.inl hv
      · exact Or.inr ((mem_keys_set uid pr.2 _).2 (Or.inl hv))

theorem engineInv_add_file_by (uid name : String) (size : Int) {s : State}
    (h : EngineInv s) : EngineInv (add_file_by uid name size s).2 := by
  rcases hu : Dict.get s.users uid with _ | u
  · simpa [add_file_by, hu] using h
  · by_cases hf : (Dict.get s.files name).isSome
    · simpa [add_file_by, hu, hf] using h
    · by_cases hcap : u.capacity < u.used + size
      · simpa [add_file_by, hu, hf, hcap] using h
      · have hfn : Dict.get s.files name = none := by
          rcases hg : Dict.get s.files name with _ | v
          · rfl
          · simp [hg] at hf
        have hFn : name ∉ Dict.keys s.files := fun hc => by
          have := (Dict.get_isSome_iff_mem_keys s.files name).2 hc
          simp [hfn] at this
        have hOn : name ∉ Dict.keys s.owners := fun hc => hFn ((h.keysEq name).2 hc)
        have hon : Dict.get s.owners name = none := get_eq_none_of_not_mem hOn
        have hstate : (add_file_by uid name size s).2 =
            { s with files := Dict.set s.files name size,
                     owners := Dict.set s.owners name uid,
                     users := Dict.set s.users uid ⟨u.capacity, u.used + size⟩ } := by
          simp [add_file_by, hu, hf, hcap]
        have hukeys : Dict.keys (Dict.set s.users uid
            (⟨u.capacity, u.used + size⟩ : UserRec)) = Dict.keys s.users :=
          Dict.keys_set_of_isSome _ (by simp [hu])
        rw [hstate]
        refine ⟨?_, ?_, ?_, h.nodupB, ?_, ?_⟩
        · rw [Dict.keys_set_of_isNone _ hfn]
          simp [List.nodup_append, h.nodupF, hFn]
        · rw [Dict.keys_set_of_isNone _ hon]
          simp [List.nodup_append, h.nodupO, hOn]
        · rw [hukeys]
          exact h.nodupU
        · intro p
          rw [mem_keys_set, mem_keys_set]
          have := h.keysEq p
          tauto
        · intro pr hpr
          rcases Dict.mem_set hpr with hp | hp
          · rw [hp]
            right
            rw [hukeys]
            exact (Dict.get_isSome_iff_mem_keys s.users uid).1 (by simp [hu])
          · rcases h.ownersValid pr hp with hv | hv
            · exact Or.inl hv
            · right
              rw [hukeys]
              exact hv

theorem engineInv_delete_file (name : String) {s : State}
    (h : EngineInv s) : EngineInv (delete_file name s).2 := by
  rcases hf : Dict.get s.files name with _ | size
  · simpa [delete_file, hf] using h
  · have husers : Dict.keys (delete_file name s).2.users = Dict.keys s.users := by
      simp only [delete_file, hf]
      rcases ho : Dict.get s.owners name with _ | o
      · rfl
      · rcases hu : Dict.get s.users o with _ | u
        · simp [hu]
        · simp only [hu]
          exact Dict.keys_set_of_isSome _ (by simp [hu])
    have hfiles : (delete_file name s).2.files = Dict.erase s.files name := by
      simp [delete_file, hf]
    have howners : (delete_file name s).2.owners = Dict.erase s.owners name := by
      simp [delete_file, hf]
    have hbackups : (delete_file name s).2.backups = s.backups := by
      simp [delete_file, hf]
    refine ⟨?_, ?_, ?_, ?_, ?_, ?_⟩
    · rw [hfiles]
      exact Dict.nodup_keys_erase name h.nodupF
    · rw [howners]
      exact Dict.nodup_keys_erase name h.nodupO
    · rw [husers]
      exact h.nodupU
    · rw [hbackups]
      exact h.nodupB
    · intro p
      rw [hfiles, howners, mem_keys_erase name p h.nodupF, mem_keys_erase name p h.nodupO]
      have := h.keysEq p
      tauto
    · intro pr hpr
      rw [howners] at hpr
      rcases h.ownersValid pr (Dict.mem_erase hpr) with hv | hv
      · exact Or.inl hv
      · right
        rw [husers]
        exact hv

theorem engineInv_merge_user (id1 id2 : String) {s : State}
    (h : EngineInv s) : EngineInv (merge_user id1 id2 s).2 := by
  rcases hu1 : Dict.get s.users id1 with _ | u1
  · simpa [merge_user, hu1] using h
  · rcases hu2 : Dict.get s.users id2 with _ | u2
    · simpa [merge_user, hu1, hu2] using h
    · by_cases he : id1 = id2
      · simpa [merge_user, hu1, hu2, he] using h
      · have hfiles : (merge_user id1 id2 s).2.files = s.files := by
          simp [merge_user, hu1, hu2, he]
        have howners : (merge_user id1 id2 s).2.owners =
            s.owners.map (fun pr => if pr.2 = id2 then (pr.1, id1) else pr) := by
          simp [merge_user, hu1, hu2, he]
        have husers : (merge_user id1 id2 s).2.users =
            Dict.erase (Dict.set s.users id1
              ⟨u1.capacity + u2.capacity, u1.used + u2.used⟩) id2 := by
          simp [merge_user, hu1, hu2, he]
        have hbackups : (merge_user id1 id2 s).2.backups =
            Dict.erase s.backups id2 := by
          simp [merge_user, hu1, hu2, he]
        refine ⟨?_, ?_, ?_, ?_, ?_, ?_⟩
        · rw [hfiles]
          exact h.nodupF
        · rw [howners, keys_map_rewrite]
          exact h.nodupO
        · rw [husers]
          exact Dict.nodup_keys_erase id2 (Dict.nodup_keys_set id1 _ h.nodupU)
        · rw [hbackups]
          exact Dict.nodup_keys_erase id2 h.nodupB
        · intro p
          rw [hfiles, howners, keys_map_rewrite]
          exact h.keysEq p
        · intro pr hpr
          rw [howners] at hpr
          rw [husers]
          obtain ⟨pr0, hpr0, heq⟩ := List.mem_map.1 hpr
          by_cases hv : pr0.2 = id2
          · right
            have h2 : pr.2 = id1 := by
              rw [← heq]
              simp [hv]
            rw [h2, ← Dict.get_isSome_iff_mem_keys,
              Dict.get_erase_ne _ _ _ he, Dict.get_set_self]
            rfl
          · have h2 : pr.2 = pr0.2 := by
              rw [← heq]
              simp [hv]
            rw [h2]
            rcases h.ownersValid pr0 hpr0 with hval | hval
            · exact Or.inl hval
            · right
              rw [← Dict.get_isSome_iff_mem_keys, Dict.get_erase_ne _ _ _ hv]
              by_cases h1 : pr0.2 = id1
              · rw [h1, Dict.get_set_self]
                rfl
              · rw [Dict.get_set_ne _ _ _ _ h1]
                exact (Dict.get_isSome_iff_mem_keys s.users pr0.2).2 hval

theorem engineInv_backup_user (uid : String) {s : State}
    (h : EngineInv s) : EngineInv (backup_user uid s).2 := by
  by_cases hv : ¬uid = "admin" ∧ Dict.get s.users uid = none
  · simpa [backup_user, hv] using h
  · have hstate : (backup_user uid s).2 =
        { s with backups := Dict.set s.backups uid (ownedFiles uid s) } := by
      simp [backup_user, hv]
    rw [hstate]
    exact ⟨h.nodupF, h.nodupO, h.nodupU, Dict.nodup_keys_set uid _ h.nodupB,
      h.keysEq, h.ownersValid⟩

theorem restoreEntry_inv (uid : String) (entry : String × Int) (s : State)
    (r : Nat) (h : EngineInv s)
    (huid : uid = "admin" ∨ uid ∈ Dict.keys s.users) :
    EngineInv (restoreEntry uid (s, r) entry).1 ∧
      Dict.keys (restoreEntry uid (s, r) entry).1.users = Dict.keys s.users ∧
      (restoreEntry uid (s, r) entry).1.backups = s.backups := by
  obtain ⟨path, size⟩ := entry
  rcases hf : Dict.get s.files path with _ | cursz
  · -- recreate branch: the file does not exist
    have hFn : path ∉ Dict.keys s.files := fun hc => by
      have := (Dict.get_isSome_iff_mem_keys s.files path).2 hc
      simp [hf] at this
    have hOn : path ∉ Dict.keys s.owners := fun hc => hFn ((h.keysEq path).2 hc)
    have hon : Dict.get s.owners path = none := get_eq_none_of_not_mem hOn
    have husers : Dict.keys (restoreEntry uid (s, r) (path, size)).1.users =
        Dict.keys s.users := by
      simp only [restoreEntry, hf]
      rcases hu : Dict.get s.users uid with _ | u
      · simp [hu]
      · simp only [hu]
        exact Dict.keys_set_of_isSome _ (by simp [hu])
    have hfiles : (restoreEntry uid (s, r) (path, size)).1.files =
        Dict.set s.files path size := by
      rcases hu : Dict.get s.users uid with _ | u <;>
        simp [restoreEntry, hf, hu]
    have howners : (restoreEntry uid (s, r) (path, size)).1.owners =
        Dict.set s.owners path uid := by
      rcases hu : Dict.get s.users uid with _ | u <;>
        simp [restoreEntry, hf, hu]
    have hbackups : (restoreEntry uid (s, r) (path, size)).1.backups =
        s.backups := by
      rcases hu : Dict.get s.users uid with _ | u <;>
        simp [restoreEntry, hf, hu]
    refine ⟨⟨?_, ?_, ?_, ?_, ?_, ?_⟩, husers, hbackups⟩
    · rw [hfiles, Dict.keys_set_of_isNone _ hf]
      simp [List.nodup_append, h.nodupF, hFn]
    · rw [howners, Dict.keys_set_of_isNone _ hon]
      simp [List.nodup_append, h.nodupO, hOn]
    · rw [husers]
      exact h.nodupU
    · rw [hbackups]
      exact h.nodupB
    · intro p
      rw [hfiles, howners, mem_keys_set, mem_keys_set]
      have := h.keysEq p
      tauto
    · intro pr hpr
      rw [howners] at hpr
      rcases Dict.mem_set hpr with hp | hp
      · rw [hp]
        rcases huid with hh | hh
        · exact Or.inl hh
        · right
          rw [husers]
          exact hh
      · rcases h.ownersValid pr hp with hval | hval
        · exact Or.inl hval
        · right
          rw [husers]
          exact hval
  · rcases ho : Dict.get s.owners path with _ | owner
    · -- owner link missing (unreachable under the invariant): no-op
      have hid : restoreEntry uid (s, r) (path, size) = (s, r) := by
        simp [restoreEntry, hf, ho]
      rw [hid]
      exact ⟨h, rfl, rfl⟩
    · by_cases hne : owner = uid
      · -- same-owner overwrite branch
        have husers : Dict.keys (restoreEntry uid (s, r) (path, size)).1.users =
            Dict.keys s.users := by
          simp only [restoreEntry, hf, ho, hne, ite_not, if_pos rfl]
          rcases hu : Dict.get s.users uid with _ | u
          · simp [hu]
          · simp only [hu]
            exact Dict.keys_set_of_isSome _ (by simp [hu])
        have hfiles : (restoreEntry uid (s, r) (path, size)).1.files =
            Dict.set s.files path size := by
          rcases hu : Dict.get s.users uid with _ | u <;>
            simp [restoreEntry, hf, ho, hne, hu]
        have howners : (restoreEntry uid (s, r) (path, size)).1.owners =
            s.owners := by
          rcases hu : Dict.get s.users uid with _ | u <;>
            simp [restoreEntry, hf, ho, hne, hu]
        have hbackups : (restoreEntry uid (s, r) (path, size)).1.backups =
            s.backups := by
          rcases hu : Dict.get s.users uid with _ | u <;>
            simp [restoreEntry, hf, ho, hne, hu]
        have hkeysF : Dict.keys (Dict.set s.files path size) = Dict.keys s.files :=
          Dict.keys_set_of_isSome _ (by simp [hf])
        refine ⟨⟨?_, ?_, ?_, ?_, ?_, ?_⟩, husers, hbackups⟩
        · rw [hfiles, hkeysF]
          exact h.nodupF
        · rw [howners]
          exact h.nodupO
        · rw [husers]
          exact h.nodupU
        · rw [hbackups]
          exact h.nodupB
        · intro p
          rw [hfiles, howners, hkeysF]
          exact h.keysEq p
        · intro pr hpr
          rw [howners] at hpr
          rcases h.ownersValid pr hpr with hval | hval
          · exact Or.inl hval
          · right
            rw [husers]
            exact hval
      · by_cases ha : uid = "admin"
        · -- forced reclaim branch
          subst ha
          have husers : Dict.keys (restoreEntry "admin" (s, r) (path, size)).1.users =
              Dict.keys s.users := by
            rcases hu : Dict.get s.users owner with _ | u
            · simp [restoreEntry, hf, ho, hne, hu]
            · simp only [restoreEntry, hf, ho, hu]
              rw [if_pos (by simp [hne])]
              exact Dict.keys_set_of_isSome _ (by simp [hu])
          have hfiles : (restoreEntry "admin" (s, r) (path, size)).1.files =
              Dict.set s.files path size := by
            rcases hu : Dict.get s.users owner with _ | u <;>
              simp [restoreEntry, hf, ho, hne, hu]
          have howners : (restoreEntry "admin" (s, r) (path, size)).1.owners =
              Dict.set s.owners path "admin" := by
            rcases hu : Dict.get s.users owner with _ | u <;>
              simp [restoreEntry, hf, ho, hne, hu]
          have hbackups : (restoreEntry "admin" (s, r) (path, size)).1.backups =
              s.backups := by
            rcases hu : Dict.get s.users owner with _ | u <;>
              simp [restoreEntry, hf, ho, hne, hu]
          have hkeysF : Dict.keys (Dict.set s.files path size) =
              Dict.keys s.files := Dict.keys_set_of_isSome _ (by simp [hf])
          have hkeysO : Dict.keys (Dict.set s.owners path "admin") =
              Dict.keys s.owners := Dict.keys_set_of_isSome _ (by simp [ho])
          refine ⟨⟨?_, ?_, ?_, ?_, ?_, ?_⟩, husers, hbackups⟩
          · rw [hfiles, hkeysF]
            exact h.nodupF
          · rw [howners, hkeysO]
            exact h.nodupO
          · rw [husers]
            exact h.nodupU
          · rw [hbackups]
            exact h.nodupB
          · intro p
            rw [hfiles, howners, hkeysF, hkeysO]
            exact h.keysEq p
          · intro pr hpr
            rw [howners] at hpr
            rcases Dict.mem_set hpr with hp | hp
            · rw [hp]
              exact Or.inl rfl
            · rcases h.ownersValid pr hp with hval | hval
              · exact Or.inl hval
              · right
                rw [husers]
                exact hval
        · -- foreign owner, non-admin: no-op
          have hid : restoreEntry uid (s, r) (path, size) = (s, r) := by
            simp [restoreEntry, hf, ho, hne, ha]
          rw [hid]
          exact ⟨h, rfl, rfl⟩

theorem engineInv_prune (ps : List String) {s : State} (h : EngineInv s) :
    EngineInv (pruneState ps s) := by
  refine ⟨nodup_keys_foldl_erase ps s.files h.nodupF,
    nodup_keys_foldl_erase ps s.owners h.nodupO, h.nodupU, h.nodupB, ?_, ?_⟩
  · intro p
    show p ∈ Dict.keys (ps.foldl (fun d p => Dict.erase d p) s.files) ↔
      p ∈ Dict.keys (ps.foldl (fun d p => Dict.erase d p) s.owners)
    rw [mem_keys_foldl_erase ps s.files h.nodupF p,
      mem_keys_foldl_erase ps s.owners h.nodupO p]
    have := h.keysEq p
    tauto
  · intro pr hpr
    exact h.ownersValid pr ((foldl_erase_sublist ps s.owners).mem hpr)

theorem engineInv_users_set_existing (uid : String) (u u' : UserRec) {s : State}
    (h : EngineInv s) (hu : Dict.get s.users uid = some u) :
    EngineInv { s with users := Dict.set s.users uid u' } := by
  have hk : Dict.keys (Dict.set s.users uid u') = Dict.keys s.users :=
    Dict.keys_set_of_isSome _ (by simp [hu])
  refine ⟨h.nodupF, h.nodupO, ?_, h.nodupB, h.keysEq, ?_⟩
  · rw [hk]
    exact h.nodupU
  · intro pr hpr
    rcases h.ownersValid pr hpr with hv | hv
    · exact Or.inl hv
    · right
      rw [hk]
      exact hv

theorem engineInv_recompute (uid : String) {s : State} (h : EngineInv s) :
    EngineInv (recomputeUsed uid s) := by
  rcases hu : Dict.get s.users uid with _ | u
  · simpa [recomputeUsed, hu] using h
  · have hres : recomputeUsed uid s =
        { s with users := Dict.set s.users uid ⟨u.capacity, ownedTotal uid s⟩ } := by
      simp [recomputeUsed, hu]
    rw [hres]
    exact engineInv_users_set_existing uid u _ h hu

theorem foldl_restoreEntry_inv (uid : String) (backup : List (String × Int))
    (st : State × Nat) (h : EngineInv st.1)
    (huid : uid = "admin" ∨ uid ∈ Dict.keys st.1.users) :
    EngineInv (backup.foldl (restoreEntry uid) st).1 ∧
      Dict.keys (backup.foldl (restoreEntry uid) st).1.users =
        Dict.keys st.1.users := by
  induction backup generalizing st with
  | nil => exact ⟨h, rfl⟩
  | cons e es ih =>
    obtain ⟨s0, r0⟩ := st
    simp only [List.foldl_cons]
    have step := restoreEntry_inv uid e s0 r0 h huid
    have huid2 : uid = "admin" ∨
        uid ∈ Dict.keys (restoreEntry uid (s0, r0) e).1.users := by
      rcases huid with hh | hh
      · exact Or.inl hh
      · right
        rw [step.2.1]
        exact hh
    have hrec := ih (restoreEntry uid (s0, r0) e) step.1 huid2
    refine ⟨hrec.1, ?_⟩
    rw [hrec.2, step.2.1]

theorem engineInv_restore_user (uid : String) {s : State}
    (h : EngineInv s) : EngineInv (restore_user uid s).2 := by
  by_cases hv : ¬uid = "admin" ∧ Dict.get s.users uid = none
  · simpa [restore_user, hv] using h
  · have huid : uid = "admin" ∨ uid ∈ Dict.keys s.users := by
      by_cases ha : uid = "admin"
      · exact Or.inl ha
      · right
        rcases hg : Dict.get s.users uid with _ | u
        · exact absurd ⟨ha, hg⟩ hv
        · exact (Dict.get_isSome_iff_mem_keys s.users uid).1 (by simp [hg])
    rcases hb : Dict.get s.backups uid with _ | backup
    · rcases hu : Dict.get s.users uid with _ | u
      · have ha : uid = "admin" := by
          by_cases ha : uid = "admin"
          · exact ha
          · exact absurd ⟨ha, hu⟩ hv
        subst ha
        have hres : (restore_user "admin" s).2 =
            pruneState ((s.owners.filter (fun pr => pr.2 = "admin")).map Prod.fst) s := by
          simp [restore_user, hb, hu, pruneState]
        rw [hres]
        exact engineInv_prune _ h
      · have hres : (restore_user uid s).2 =
            { pruneState ((s.owners.filter (fun pr => pr.2 = uid)).map Prod.fst) s with
              users := Dict.set s.users uid ⟨u.capacity, 0⟩ } := by
          simp [restore_user, hv, hb, hu, pruneState]
        rw [hres]
        exact engineInv_users_set_existing uid u _ (engineInv_prune _ h) hu
    · have hres : (restore_user uid s).2 =
          recomputeUsed uid (backup.foldl (restoreEntry uid)
            (pruneState (((s.owners.filter (fun pr => pr.2 = uid)).map Prod.fst).filter
              (fun p => (Dict.get backup p).isNone)) s, 0)).1 := by
        simp [restore_user, hv, hb]
      rw [hres]
      exact engineInv_recompute uid
        (foldl_restoreEntry_inv uid backup _ (engineInv_prune _ h) huid).1

theorem engineInv_initState : EngineInv initState := by
  refine ⟨?_, ?_, ?_, ?_, ?_, ?_⟩ <;> simp [initState, Dict.keys]

theorem engineInv_applyOp (op : Op) {s : State} (h : EngineInv s) :
    EngineInv (applyOp op s) := by
  cases op with
  | addFile name size => exact engineInv_add_file name size h
  | getFileSize name => exact h
  | getNLargest pfx n => exact h
  | deleteFile name => exact engineInv_delete_file name h
  | addUser uid capacity => exact engineInv_add_user uid capacity h
  | addFileBy uid name size => exact engineInv_add_file_by uid name size h
  | mergeUser id1 id2 => exact engineInv_merge_user id1 id2 h
  | backupUser uid => exact engineInv_backup_user uid h
  | restoreUser uid => exact engineInv_restore_user uid h

theorem engineInv_of_reachable {s : State} (h : Reachable s) : EngineInv s := by
  induction h with
  | init => exact engineInv_initState
  | step op hs ih => exact engineInv_applyOp op ih

/-- C8: in every state reachable from a fresh engine by any sequence of
the nine public operations, the file-size mapping and the file-owner
mapping have exactly the same set of keys: no file name is ever present
in one map and absent from the other. -/
theorem c8_files_owners_same_keys {s : State} (h : Reachable s) :
    ∀ p, p ∈ Dict.keys s.files ↔ p ∈ Dict.keys s.owners :=
  (engineInv_of_reachable h).keysEq

/-- C8 witness: after `add_file("/a", 1)` on a fresh engine, `"/a"` is a
key of the owner map because it is a key of the file map. -/
theorem c8_files_owners_same_keys_witness :
    "/a" ∈ Dict.keys (applyOp (Op.addFile "/a" 1) initState).owners :=
  (c8_files_owners_same_keys
    (Reachable.step (Op.addFile "/a" 1) Reachable.init) "/a").1 (by decide)

/-- C9: in every reachable state, the owner recorded for every existing
file is either the literal string `"admin"` or a currently-registered
user id — never a dangling identity. -/
theorem c9_owners_valid {s : State} (h : Reachable s) :
    ∀ pr ∈ s.owners, pr.2 = "admin" ∨ pr.2 ∈ Dict.keys s.users :=
  (engineInv_of_reachable h).ownersValid

/-- C9 witness: the owner link written by `add_file("/a", 1)` on a fresh
engine is a valid identity. -/
theorem c9_owners_valid_witness :
    ("/a", "admin").2 = "admin" ∨
      ("/a", "admin").2 ∈ Dict.keys (applyOp (Op.addFile "/a" 1) initState).users :=
  c9_owners_valid (Reachable.step (Op.addFile "/a" 1) Reachable.init)
    ("/a", "admin") (by decide)

theorem keys_snapshot_sublist (ow : Dict String) (fs : Dict Int) (uid : String) :
    (Dict.keys ((ow.filter (fun pr => pr.2 = uid)).filterMap
      (fun pr => (Dict.get fs pr.1).map (fun sz => (pr.1, sz))))).Sublist
      (Dict.keys ow) := by
  induction ow with
  | nil => simp [Dict.keys]
  | cons hd tl ih =>
    obtain ⟨k', o'⟩ := hd
    by_cases ho : o' = uid
    · rcases hg : Dict.get fs k' with _ | sz
      · simp [List.filter_cons, List.filterMap_cons, ho, hg]
        exact ih.cons k'
      · simp [List.filter_cons, List.filterMap_cons, ho, hg]
        exact ih
    · simp [List.filter_cons, ho]
      exact ih.cons k'

theorem get_ownedFiles (uid p : String) (s : State)
    (hndO : (Dict.keys s.owners).Nodup) :
    Dict.get (ownedFiles uid s) p =
      (match Dict.get s.owners p with
       | some o => if o = uid then Dict.get s.files p else none
       | none => none) := by
  unfold ownedFiles
  revert hndO
  generalize s.owners = ow
  intro hnd
  induction ow with
  | nil => simp [Dict.get]
  | cons hd tl ih =>
    obtain ⟨k', o'⟩ := hd
    simp only [Dict.keys_cons, List.nodup_cons] at hnd
    have hnone : k' ∉ Dict.keys tl →
        Dict.get ((tl.filter (fun pr => pr.2 = uid)).filterMap
          (fun pr => (Dict.get s.files pr.1).map (fun sz => (pr.1, sz)))) k' = none :=
      fun hni => get_eq_none_of_not_mem
        (fun hc => hni ((keys_snapshot_sublist tl s.files uid).subset hc))
    by_cases hk : k' = p
    · subst hk
      by_cases ho : o' = uid
      · rcases hg : Dict.get s.files k' with _ | sz
        · simp [Dict.get, ho, hg, hnone hnd.1]
        · simp [Dict.get, ho, hg]
      · simp [Dict.get, ho, hnone hnd.1]
    · by_cases ho : o' = uid
      · rcases hg : Dict.get s.files k' with _ | sz
        · simp [Dict.get, ho, hg, hk, ih hnd.2]
        · simp [Dict.get, ho, hg, hk, ih hnd.2]
      · simp [Dict.get, ho, hk, ih hnd.2]

theorem length_filterMap_of_isSome {α β : Type} (g : α → Option β) (l : List α)
    (h : ∀ x ∈ l, (g x).isSome) : (l.filterMap g).length = l.length := by
  induction l with
  | nil => rfl
  | cons x xs ih =>
    rcases hg : g x with _ | b
    · exact absurd (h x (List.mem_cons_self _ _)) (by simp [hg])
    · simp [List.filterMap_cons, hg,
        ih (fun y hy => h y (List.mem_cons_of_mem _ hy))]

theorem foldl_restoreEntry_id (uid : String) (entries : List (String × Int))
    (s : State) (r : Nat)
    (hprop : ∀ pr ∈ entries, Dict.get s.files pr.1 = some pr.2 ∧
      Dict.get s.owners pr.1 = some uid) :
    entries.foldl (restoreEntry uid) (s, r) = (s, r + entries.length) := by
  induction entries generalizing r with
  | nil => simp
  | cons e es ih =>
    obtain ⟨path, size⟩ := e
    have he := hprop (path, size) (List.mem_cons_self _ _)
    have hstep : restoreEntry uid (s, r) (path, size) = (s, r + 1) := by
      rcases hu : Dict.get s.users uid with _ | u
      · simp [restoreEntry, he.1, he.2, hu, Dict.set_self he.1]
      · have hrec : ({ u with used := u.used + (size - size) } : UserRec) = u := by
          have hz : u.used + (size - size) = u.used := by ring
          rw [hz]
        simp [restoreEntry, he.1, he.2, hu, Dict.set_self he.1, hrec,
          Dict.set_self hu]
    simp only [List.foldl_cons, hstep]
    rw [ih (r + 1) (fun pr hpr => hprop pr (List.mem_cons_of_mem _ hpr))]
    simp only [List.length_cons]
    ring_nf

/-- C4: for every identity valid for backup (`"admin"` or a registered
user), `backup_user(id)` followed immediately by `restore_user(id)` with
no intervening operation leaves the set of files owned by `id` and their
sizes unchanged, and the restore call returns a count equal to the number
of files `id` owned at backup time — which is also `backup_user`'s return
value.  (The key-uniqueness and owners⊆files hypotheses are the engine
invariant of reachable states.) -/
theorem c4_backup_restore_roundtrip (uid : String) (s : State)
    (hvalid : uid = "admin" ∨ (Dict.get s.users uid).isSome)
    (hndO : (Dict.keys s.owners).Nodup)
    (hsub : ∀ p ∈ Dict.keys s.owners, p ∈ Dict.keys s.files) :
    (backup_user uid s).1 = some ((ownedFiles uid s).length : Int) ∧
    (restore_user uid (backup_user uid s).2).1 =
      some ((ownedFiles uid s).length : Int) ∧
    ownedFiles uid (restore_user uid (backup_user uid s).2).2 =
      ownedFiles uid s ∧
    (ownedFiles uid s).length =
      (s.owners.filter (fun pr => pr.2 = uid)).length := by
  have hguard : ¬(¬uid = "admin" ∧ Dict.get s.users uid = none) := by
    rcases hvalid with h | h
    · simp [h]
    · intro hc
      rw [hc.2] at h
      simp at h
  have hbak : backup_user uid s =
      (some ((ownedFiles uid s).length : Int),
        { s with backups := Dict.set s.backups uid (ownedFiles uid s) }) := by
    simp [backup_user, hguard]
  have hbak1 : (backup_user uid s).1 = some ((ownedFiles uid s).length : Int) := by
    rw [hbak]
  have hbak2 : (backup_user uid s).2 =
      { s with backups := Dict.set s.backups uid (ownedFiles uid s) } := by
    rw [hbak]
  have hndS : (Dict.keys (ownedFiles uid s)).Nodup :=
    (keys_snapshot_sublist s.owners s.files uid).nodup hndO
  have hprop : ∀ pr ∈ ownedFiles uid s,
      Dict.get s.files pr.1 = some pr.2 ∧ Dict.get s.owners pr.1 = some uid := by
    intro pr hpr
    have hget := Dict.get_of_mem hndS hpr
    rw [get_ownedFiles uid pr.1 s hndO] at hget
    rcases ho : Dict.get s.owners pr.1 with _ | o
    · simp [ho] at hget
    · simp only [ho] at hget
      by_cases hou : o = uid
      · rw [if_pos hou] at hget
        exact ⟨hget, congrArg some hou⟩
      · rw [if_neg hou] at hget
        simp at hget
  have hfilter : (((s.owners.filter (fun pr => pr.2 = uid)).map Prod.fst).filter
      (fun p => (Dict.get (ownedFiles uid s) p).isNone)) = [] := by
    rw [List.filter_eq_nil_iff]
    intro p hp
    have hmem := (mem_owner_keys_iff s.owners uid p hndO).1 hp
    have hfs : (Dict.get s.files p).isSome := by
      refine (Dict.get_isSome_iff_mem_keys s.files p).2 (hsub p ?_)
      exact (Dict.get_isSome_iff_mem_keys s.owners p).1 (by simp [hmem])
    obtain ⟨sz, hsz⟩ := Option.isSome_iff_exists.1 hfs
    rw [get_ownedFiles uid p s hndO]
    simp [hmem, hsz]
  have hfold := foldl_restoreEntry_id uid (ownedFiles uid s)
    { s with backups := Dict.set s.backups uid (ownedFiles uid s) } 0 hprop
  have hres : restore_user uid
      { s with backups := Dict.set s.backups uid (ownedFiles uid s) } =
      (some ((ownedFiles uid s).length : Int),
        recomputeUsed uid
          { s with backups := Dict.set s.backups uid (ownedFiles uid s) }) := by
    simp [restore_user, hguard, Dict.get_set_self, hfilter, pruneState, hfold]
  refine ⟨hbak1, ?_, ?_, ?_⟩
  · rw [hbak2, hres]
  · rw [hbak2, hres]
    rcases hu : Dict.get s.users uid with _ | u
    · simp [recomputeUsed, hu, ownedFiles]
    · simp [recomputeUsed, hu, ownedFiles]
  · unfold ownedFiles
    refine length_filterMap_of_isSome _ _ ?_
    intro pr hpr
    have hk : pr.1 ∈ Dict.keys s.owners :=
      List.mem_map_of_mem Prod.fst (List.mem_of_mem_filter hpr)
    have h2 := (Dict.get_isSome_iff_mem_keys s.files pr.1).2 (hsub pr.1 hk)
    simpa using h2

/-- C4 witness: user `"u"` owning the single file `"/f1"` of size 3;
backup returns 1, immediate restore returns 1 and the owned file set is
unchanged. -/
theorem c4_backup_restore_roundtrip_witness :
    (backup_user "u"
      (⟨[("/f1", 3)], [("/f1", "u")], [("u", ⟨10, 3⟩)], []⟩ : State)).1 = some 1 ∧
    (restore_user "u" (backup_user "u"
      (⟨[("/f1", 3)], [("/f1", "u")], [("u", ⟨10, 3⟩)], []⟩ : State)).2).1 = some 1 ∧
    ownedFiles "u" (restore_user "u" (backup_user "u"
      (⟨[("/f1", 3)], [("/f1", "u")], [("u", ⟨10, 3⟩)], []⟩ : State)).2).2 =
      ownedFiles "u" (⟨[("/f1", 3)], [("/f1", "u")], [("u", ⟨10, 3⟩)], []⟩ : State) := by
  have h := c4_backup_restore_roundtrip "u"
    (⟨[("/f1", 3)], [("/f1", "u")], [("u", ⟨10, 3⟩)], []⟩ : State)
    (Or.inr (by decide)) (by decide) (by decide)
  have hlen : ((ownedFiles "u"
      (⟨[("/f1", 3)], [("/f1", "u")], [("u", ⟨10, 3⟩)], []⟩ : State)).length : Int) = 1 := by
    decide
  exact ⟨hlen ▸ h.1, hlen ▸ h.2.1, h.2.2.1⟩
